import Mathlib

/-!
# PyTWAT core verification

Shallow embedding of the PyTWAT telnet transport
(`src/pytwat/network/telnet_client.py`) and terminal emulator
(`src/pytwat/network/terminal_emulator.py`), with theorems checking the
natural-language specification against the code.

Bytes are modelled as `Nat` (values 0–255), byte strings as `List Nat`,
and Python text as `List Char`.  Fallible operations return `Except` or
`Option`.  The third-party `pyte` screen engine and the Python `cp437`
codec are not part of the repository's sources; where a claim depends on
them they are modelled from the specification's description, and each
such definition is marked `Modelled from the spec:` in its doc comment.
-/

namespace PyTWAT

/-! ## Telnet protocol constants (telnet_client.py lines 14–27) -/

def IAC : Nat := 255
def DONT : Nat := 254
def DO : Nat := 253
def WONT : Nat := 252
def WILL : Nat := 251
def SB : Nat := 250
def SE : Nat := 240

def ECHO : Nat := 1
def SUPPRESS_GO_AHEAD : Nat := 3
def TERMINAL_TYPE : Nat := 24
def NAWS : Nat := 31

/-! ## Negotiation responder (`TelnetClient._handle_telnet_command`) -/

/-- The bytes `TelnetClient._handle_telnet_command` writes in reply to a
three-byte negotiation command `IAC command option`
(telnet_client.py lines 192–229).  A command outside
{DO, DONT, WILL, WONT} writes nothing. -/
def handle_telnet_command (command opt : Nat) : List Nat :=
  if command = DO then
    if opt = TERMINAL_TYPE then
      [IAC, WILL, TERMINAL_TYPE]
    else if opt = NAWS then
      [IAC, WILL, NAWS] ++ [IAC, SB, NAWS, 0, 80, 0, 24, IAC, SE]
    else
      [IAC, WONT, opt]
  else if command = DONT then
    [IAC, WONT, opt]
  else if command = WILL then
    if opt = ECHO ∨ opt = SUPPRESS_GO_AHEAD then
      [IAC, DO, opt]
    else
      [IAC, DONT, opt]
  else if command = WONT then
    [IAC, DONT, opt]
  else
    []

/-- C1: For every received telnet negotiation command the Transport writes
exactly the reply the responder table prescribes: DO TERMINAL_TYPE ↦
IAC WILL TERMINAL_TYPE; DO NAWS ↦ IAC WILL NAWS followed immediately by
IAC SB NAWS 0 80 0 24 IAC SE; DO other ↦ IAC WONT option; DONT option ↦
IAC WONT option; WILL ECHO / WILL SUPPRESS_GO_AHEAD ↦ IAC DO option;
WILL other ↦ IAC DONT option; WONT option ↦ IAC DONT option. -/
theorem C1_negotiation_responder :
    handle_telnet_command DO TERMINAL_TYPE = [IAC, WILL, TERMINAL_TYPE] ∧
    handle_telnet_command DO NAWS =
      [IAC, WILL, NAWS] ++ [IAC, SB, NAWS, 0, 80, 0, 24, IAC, SE] ∧
    (∀ opt, opt ≠ TERMINAL_TYPE → opt ≠ NAWS →
      handle_telnet_command DO opt = [IAC, WONT, opt]) ∧
    (∀ opt, handle_telnet_command DONT opt = [IAC, WONT, opt]) ∧
    handle_telnet_command WILL ECHO = [IAC, DO, ECHO] ∧
    handle_telnet_command WILL SUPPRESS_GO_AHEAD = [IAC, DO, SUPPRESS_GO_AHEAD] ∧
    (∀ opt, opt ≠ ECHO → opt ≠ SUPPRESS_GO_AHEAD →
      handle_telnet_command WILL opt = [IAC, DONT, opt]) ∧
    (∀ opt, handle_telnet_command WONT opt = [IAC, DONT, opt]) := by
  refine ⟨rfl, rfl, ?_, ?_, rfl, rfl, ?_, ?_⟩
  · intro opt h1 h2
    simp only [handle_telnet_command, DO, DONT, WILL, WONT, TERMINAL_TYPE, NAWS] at *
    simp [h1, h2]
  · intro opt
    simp [handle_telnet_command, DO, DONT]
  · intro opt h1 h2
    simp only [handle_telnet_command, DO, DONT, WILL, WONT, ECHO, SUPPRESS_GO_AHEAD] at *
    simp [h1, h2]
  · intro opt
    simp [handle_telnet_command, DO, DONT, WILL, WONT]

/-- Witness for C1: the hypotheses of the quantified conjuncts are
satisfiable at concrete options (option 5 is neither TERMINAL_TYPE, NAWS,
ECHO nor SUPPRESS_GO_AHEAD). -/
theorem C1_negotiation_responder_witness :
    handle_telnet_command DO 5 = [IAC, WONT, 5] ∧
    handle_telnet_command WILL 5 = [IAC, DONT, 5] := by
  refine ⟨?_, ?_⟩
  · exact C1_negotiation_responder.2.2.1 5 (by decide) (by decide)
  · exact C1_negotiation_responder.2.2.2.2.2.2.1 5 (by decide) (by decide)

/-! ## Chunk processing (`TelnetClient._process_telnet_data`) -/

/-- A protocol action dispatched (not forwarded) while scanning a chunk:
either a three-byte negotiation command handed to
`_handle_telnet_command`, or a subnegotiation payload handed to
`_handle_subnegotiation`. -/
inductive TelnetAction where
  | negotiate (command opt : Nat)
  | subneg (payload : List Nat)
  deriving DecidableEq, Repr

/-- `data.find(IAC + SE, i)` of telnet_client.py line 171: locate the first
occurrence of the two-byte pattern `[IAC, SE]`, returning the bytes before
it and the bytes after it, or `none` when the pattern is absent. -/
def findIacSe : List Nat → Option (List Nat × List Nat)
  | [] => none
  | [_] => none
  | a :: b :: rest =>
    if a = IAC ∧ b = SE then
      some ([], rest)
    else
      match findIacSe (b :: rest) with
      | some (pre, post) => some (a :: pre, post)
      | none => none

/-- The while-loop of `TelnetClient._process_telnet_data`
(telnet_client.py lines 151–190), written with explicit fuel so that it is
structurally recursive; each loop iteration consumes at least one byte, so
fuel `data.length` is always enough.  Returns the forwarded display bytes
together with the protocol actions dispatched, in order.  A `break` in the
Python (incomplete command or unterminated subnegotiation at end of chunk)
returns what was accumulated so far and discards the rest. -/
def processAux : Nat → List Nat → List Nat × List TelnetAction
  | 0, _ => ([], [])
  | _ + 1, [] => ([], [])
  | fuel + 1, b :: rest =>
    if b = IAC then
      match rest with
      | [] => ([], [])
      | c :: rest2 =>
        if c = DO ∨ c = DONT ∨ c = WILL ∨ c = WONT then
          match rest2 with
          | [] => ([], [])
          | o :: rest3 =>
            let p := processAux fuel rest3
            (p.1, .negotiate c o :: p.2)
        else if c = SB then
          match findIacSe rest2 with
          | none => ([], [])
          | some (payload, post) =>
            let p := processAux fuel post
            (p.1, .subneg payload :: p.2)
        else if c = IAC then
          let p := processAux fuel rest2
          (255 :: p.1, p.2)
        else
          processAux fuel rest2
    else
      let p := processAux fuel rest
      (b :: p.1, p.2)

/-- `TelnetClient._process_telnet_data` applied to one read chunk. -/
def process_telnet_data (data : List Nat) : List Nat × List TelnetAction :=
  processAux data.length data

/-- With enough fuel, a chunk containing no IAC byte is forwarded verbatim
with no protocol action. -/
theorem processAux_no_iac :
    ∀ (fuel : Nat) (d : List Nat), d.length ≤ fuel → (∀ x ∈ d, x ≠ 255) →
      processAux fuel d = (d, []) := by
  intro fuel
  induction fuel with
  | zero =>
    intro d hlen _
    have : d = [] := List.length_eq_zero.mp (Nat.le_zero.mp hlen)
    subst this
    rfl
  | succ n ih =>
    intro d hlen hno
    match d with
    | [] => rfl
    | b :: rest =>
      have hb : b ≠ 255 := hno b (List.mem_cons_self b rest)
      have hrest : ∀ x ∈ rest, x ≠ 255 := fun x hx => hno x (List.mem_cons_of_mem b hx)
      have hlen' : rest.length ≤ n := by simpa using hlen
      simp only [processAux, IAC, if_neg hb, ih rest hlen' hrest]

/-- C7: `_process_telnet_data` forwards all non-protocol bytes verbatim in
their original order (a chunk with no 255 byte is passed through unchanged
with no action dispatched), and forwards the escaped pair (255, 255) as a
single 255 byte. -/
theorem C7_forward_verbatim :
    (∀ d : List Nat, (∀ x ∈ d, x ≠ 255) → process_telnet_data d = (d, [])) ∧
    (∀ d1 d2 : List Nat, (∀ x ∈ d1, x ≠ 255) → (∀ x ∈ d2, x ≠ 255) →
      process_telnet_data (d1 ++ [255, 255] ++ d2) = (d1 ++ 255 :: d2, [])) := by
  constructor
  · intro d hno
    exact processAux_no_iac d.length d le_rfl hno
  · intro d1 d2 h1 h2
    induction d1 with
    | nil =>
      have h := processAux_no_iac (d2.length + 1) d2 (Nat.le_succ _) h2
      show processAux (d2.length + 1 + 1) (255 :: 255 :: d2) = (255 :: d2, [])
      simp [processAux, IAC, DO, DONT, WILL, WONT, SB, h]
    | cons a d1' ih =>
      have ha : a ≠ 255 := h1 a (List.mem_cons_self a d1')
      have h1' : ∀ x ∈ d1', x ≠ 255 := fun x hx => h1 x (List.mem_cons_of_mem a hx)
      have := ih h1'
      simp only [process_telnet_data, List.cons_append, List.length_cons] at this ⊢
      simp only [processAux, IAC, if_neg ha, this]

/-- Witness for C7 at concrete chunks: bytes [65, 66, 67] pass through
unchanged, and [65, 255, 255, 66] forwards as [65, 255, 66]. -/
theorem C7_forward_verbatim_witness :
    process_telnet_data [65, 66, 67] = ([65, 66, 67], []) ∧
    process_telnet_data [65, 255, 255, 66] = ([65, 255, 66], []) := by
  constructor
  · exact C7_forward_verbatim.1 [65, 66, 67] (by decide)
  · exact C7_forward_verbatim.2 [65] [66] (by decide) (by decide)

/-- C3 counterexample: a negotiation command IAC DO NAWS split into the two
chunks [255] and [253, 31] is neither buffered nor interpreted.  The first
chunk's trailing IAC is silently dropped, the second chunk's command bytes
253, 31 are forwarded as display data (corrupting the forwarded stream),
and no negotiation action is dispatched — whereas the unsplit chunk
[255, 253, 31] forwards nothing and dispatches the DO NAWS action. -/
theorem C3_counterexample :
    process_telnet_data [255] = ([], []) ∧
    process_telnet_data [253, 31] = ([253, 31], []) ∧
    process_telnet_data [255, 253, 31] = ([], [.negotiate 253 31]) :=
  ⟨rfl, rfl, rfl⟩

/-- C3 amended: the Transport processes each read chunk independently and
carries no buffer across chunks.  A trailing IAC whose command bytes are
missing at end of chunk is dropped; an IAC SB with no IAC SE terminator in
the same chunk is dropped together with the rest of the chunk (nothing
partial is forwarded, but the bytes are discarded, not kept for the next
read); and a chunk with no IAC byte — such as the continuation of a split
command — is forwarded verbatim as display data, so a split command is
never interpreted. -/
theorem C3_amended_chunk_handling :
    (∀ d : List Nat, (∀ x ∈ d, x ≠ 255) →
      process_telnet_data (d ++ [255]) = (d, [])) ∧
    (∀ d r : List Nat, (∀ x ∈ d, x ≠ 255) → findIacSe r = none →
      process_telnet_data (d ++ 255 :: SB :: r) = (d, [])) ∧
    (∀ d : List Nat, (∀ x ∈ d, x ≠ 255) → process_telnet_data d = (d, [])) := by
  refine ⟨?_, ?_, ?_⟩
  · intro d hno
    induction d with
    | nil => rfl
    | cons a d' ih =>
      have ha : a ≠ 255 := hno a (List.mem_cons_self a d')
      have h' := ih (fun x hx => hno x (List.mem_cons_of_mem a hx))
      simp only [process_telnet_data, List.cons_append, List.length_cons] at h' ⊢
      simp only [processAux, IAC, if_neg ha, h']
  · intro d r hno hfind
    induction d with
    | nil =>
      show processAux (r.length + 1 + 1) (255 :: 250 :: r) = ([], [])
      simp [processAux, IAC, DO, DONT, WILL, WONT, SB, hfind]
    | cons a d' ih =>
      have ha : a ≠ 255 := hno a (List.mem_cons_self a d')
      have h' := ih (fun x hx => hno x (List.mem_cons_of_mem a hx))
      simp only [process_telnet_data, List.cons_append, List.length_cons] at h' ⊢
      simp only [processAux, IAC, if_neg ha, h']
  · intro d hno
    exact processAux_no_iac d.length d le_rfl hno

/-- Witness for C3 amended at concrete chunks: [65, 255] drops the trailing
IAC; [65, 255, 250, 31, 66] drops the unterminated subnegotiation; the
follow-up chunk [253, 31] is forwarded as plain display data. -/
theorem C3_amended_chunk_handling_witness :
    process_telnet_data [65, 255] = ([65], []) ∧
    process_telnet_data [65, 255, 250, 31, 66] = ([65], []) ∧
    process_telnet_data [253, 31] = ([253, 31], []) := by
  refine ⟨?_, ?_, ?_⟩
  · exact C3_amended_chunk_handling.1 [65] (by decide)
  · exact C3_amended_chunk_handling.2.1 [65] [31, 66] (by decide) (by decide)
  · exact C3_amended_chunk_handling.2.2 [253, 31] (by decide)

/-! ## CP437 decoding (`processed_data.decode('cp437', errors='replace')`) -/

/-- Modelled from the spec: the decoding table of the legacy code page
CP437 used at telnet_client.py line 130.  The codec itself is the Python
standard library's `cp437` charmap codec, which is not part of this
repository's sources; the spec describes it as mapping byte values 0–127
to the corresponding ASCII characters and 128–255 through the CP437
character table.  Entry `b` of this 256-entry list is the Unicode code
point assigned to byte `b`. -/
def cp437_decoding_table : List Nat :=
  List.range 128 ++
  [0xC7, 0xFC, 0xE9, 0xE2, 0xE4, 0xE0, 0xE5, 0xE7,
   0xEA, 0xEB, 0xE8, 0xEF, 0xEE, 0xEC, 0xC4, 0xC5,
   0xC9, 0xE6, 0xC6, 0xF4, 0xF6, 0xF2, 0xFB, 0xF9,
   0xFF, 0xD6, 0xDC, 0xA2, 0xA3, 0xA5, 0x20A7, 0x192,
   0xE1, 0xED, 0xF3, 0xFA, 0xF1, 0xD1, 0xAA, 0xBA,
   0xBF, 0x2310, 0xAC, 0xBD, 0xBC, 0xA1, 0xAB, 0xBB,
   0x2591, 0x2592, 0x2593, 0x2502, 0x2524, 0x2561, 0x2562, 0x2556,
   0x2555, 0x2563, 0x2551, 0x2557, 0x255D, 0x255C, 0x255B, 0x2510,
   0x2514, 0x2534, 0x252C, 0x251C, 0x2500, 0x253C, 0x255E, 0x255F,
   0x255A, 0x2554, 0x2569, 0x2566, 0x2560, 0x2550, 0x256C, 0x2567,
   0x2568, 0x2564, 0x2565, 0x2559, 0x2558, 0x2552, 0x2553, 0x256B,
   0x256A, 0x2518, 0x250C, 0x2588, 0x2584, 0x258C, 0x2590, 0x2580,
   0x3B1, 0xDF, 0x393, 0x3C0, 0x3A3, 0x3C3, 0xB5, 0x3C4,
   0x3A6, 0x398, 0x3A9, 0x3B4, 0x221E, 0x3C6, 0x3B5, 0x2229,
   0x2261, 0xB1, 0x2265, 0x2264, 0x2320, 0x2321, 0xF7, 0x2248,
   0xB0, 0x2219, 0xB7, 0x221A, 0x207F, 0xB2, 0x25A0, 0xA0]

/-- Decode one byte through the CP437 table; `none` only when the value is
not a byte (≥ 256), i.e. outside the table. -/
def cp437_decode_byte (b : Nat) : Option Char :=
  match cp437_decoding_table.get? b with
  | some cp => some (Char.ofNat cp)
  | none => none

/-- Decode a forwarded display-data byte string to text, byte by byte;
fails only if some byte has no decoding. -/
def cp437_decode : List Nat → Option (List Char)
  | [] => some []
  | b :: rest =>
    match cp437_decode_byte b, cp437_decode rest with
    | some c, some cs => some (c :: cs)
    | _, _ => none

set_option maxRecDepth 8192 in
/-- Every byte value 0–255 has a defined CP437 decoding. -/
theorem cp437_decode_byte_isSome : ∀ b : Nat, b < 256 → (cp437_decode_byte b).isSome := by
  decide

set_option maxRecDepth 8192 in
/-- C4: decoding forwarded display data is selective and total: each byte
0–127 decodes to its own ASCII character unchanged (7-bit escape bytes are
never altered), each byte 128–255 decodes through the CP437 character
table, and decoding a list of bytes < 256 never fails and is pointwise. -/
theorem C4_cp437_selective_decode :
    (∀ b : Nat, b < 128 → cp437_decode_byte b = some (Char.ofNat b)) ∧
    (∀ b : Nat, 128 ≤ b → b < 256 →
      cp437_decode_byte b = some (Char.ofNat (cp437_decoding_table.getD b 0))) ∧
    (∀ bs : List Nat, (∀ b ∈ bs, b < 256) →
      ∃ cs : List Char, cp437_decode bs = some cs ∧ cs.length = bs.length) := by
  refine ⟨by decide, by decide, ?_⟩
  intro bs h
  induction bs with
  | nil => exact ⟨[], rfl, rfl⟩
  | cons b rest ih =>
    have hb : b < 256 := h b (List.mem_cons_self b rest)
    obtain ⟨c, hc⟩ := Option.isSome_iff_exists.mp (cp437_decode_byte_isSome b hb)
    obtain ⟨cs, hcs, hlen⟩ := ih (fun x hx => h x (List.mem_cons_of_mem b hx))
    exact ⟨c :: cs, by simp [cp437_decode, hc, hcs], by simp [hlen]⟩

set_option maxRecDepth 8192 in
/-- Witness for C4 at concrete bytes: 65 decodes to 'A' unchanged, 176
decodes through the table to the light-shade block U+2591, and the
two-byte string [72, 219] decodes without failure to two characters. -/
theorem C4_cp437_selective_decode_witness :
    cp437_decode_byte 65 = some 'A' ∧
    cp437_decode_byte 176 = some (Char.ofNat 0x2591) ∧
    ∃ cs : List Char, cp437_decode [72, 219] = some cs ∧ cs.length = 2 := by
  refine ⟨?_, ?_, ?_⟩
  · exact C4_cp437_selective_decode.1 65 (by decide)
  · have h := C4_cp437_selective_decode.2.1 176 (by decide) (by decide)
    simpa using h
  · exact C4_cp437_selective_decode.2.2 [72, 219] (by decide)

/-! ## Connection lifecycle (`TelnetClient` state, send, disconnect, EOF) -/

/-- An event published on the event bus by the telnet client, with its
payload (event_bus.py `EventType` members used by `TelnetClient`). -/
inductive ClientEvent where
  | connected (host : List Char) (port : Nat)
  | disconnected (error : Option (List Char))
  | dataReceived (data : List Char)
  | dataSent (data : List Char)
  deriving DecidableEq, Repr

/-- The mutable state of a `TelnetClient` relevant to send/disconnect:
the `connected` flag and whether `writer`/`reader` are set (telnet_client.py
lines 38–43). -/
structure ClientState where
  connected : Bool
  writer_present : Bool
  reader_present : Bool
  deriving DecidableEq, Repr

/-- UTF-8 encoding of one Unicode code point, as Python's
`str.encode('utf-8')` produces for each character. -/
def utf8EncodeChar (c : Char) : List Nat :=
  let n := c.toNat
  if n < 0x80 then [n]
  else if n < 0x800 then [0xC0 + n / 0x40, 0x80 + n % 0x40]
  else if n < 0x10000 then
    [0xE0 + n / 0x1000, 0x80 + n / 0x40 % 0x40, 0x80 + n % 0x40]
  else
    [0xF0 + n / 0x40000, 0x80 + n / 0x1000 % 0x40, 0x80 + n / 0x40 % 0x40,
     0x80 + n % 0x40]

/-- UTF-8 encoding of a text, the active outbound encoding of
`TelnetClient.send` (telnet_client.py line 106). -/
def utf8Encode (s : List Char) : List Nat := s.flatMap utf8EncodeChar

/-- `TelnetClient.send` (telnet_client.py lines 95–108): raises
RuntimeError("Not connected to server") when `connected` is false or the
writer is gone; otherwise writes the UTF-8 encoding of the text, drains,
and publishes a DATA_SENT event carrying the original text.  The result
carries the bytes written and the events published. -/
def send (s : ClientState) (text : List Char) :
    Except (List Char) (List Nat × List ClientEvent) :=
  if s.connected = false ∨ s.writer_present = false then
    .error ("Not connected to server".data)
  else
    .ok (utf8Encode text, [.dataSent text])

/-- `TelnetClient.disconnect` (telnet_client.py lines 74–93): cancels the
read task, closes the writer, sets `connected` to false, clears reader and
writer, and publishes exactly one DISCONNECTED event with empty payload
(no error field). -/
def disconnect (_s : ClientState) : ClientState × List ClientEvent :=
  ({ connected := false, writer_present := false, reader_present := false },
   [.disconnected none])

/-- One iteration of `TelnetClient._read_loop` (telnet_client.py lines
113–133) after `reader.read(4096)` returned `raw_bytes`: an empty read
calls `disconnect()` and breaks; otherwise the chunk is stripped of telnet
commands, and a nonempty remainder is decoded as CP437 and published as a
DATA_RECEIVED event.  (Negotiation replies and terminal-probe replies are
written as side effects modelled by `handle_telnet_command` and are not
repeated here.)  The boolean is true when the loop continues. -/
def read_loop_iteration (s : ClientState) (raw_bytes : List Nat) :
    ClientState × List ClientEvent × Bool :=
  if raw_bytes = [] then
    let p := disconnect s
    (p.1, p.2, false)
  else
    let processed := (process_telnet_data raw_bytes).1
    if processed = [] then
      (s, [], true)
    else
      match cp437_decode processed with
      | some text => (s, [.dataReceived text], true)
      | none => (s, [], true)

/-- C5: `send` fails immediately with the synchronous "Not connected to
server" error whenever the client is not connected (the `connected` flag
is false or the writer is gone); when connected with a live writer it
writes the UTF-8 encoding of the text and publishes a single DATA_SENT
event carrying the original text. -/
theorem C5_send_not_connected_or_ok :
    ∀ (s : ClientState) (text : List Char),
      ((s.connected = false ∨ s.writer_present = false) →
        send s text = .error ("Not connected to server".data)) ∧
      (s.connected = true → s.writer_present = true →
        send s text = .ok (utf8Encode text, [.dataSent text])) := by
  intro s text
  constructor
  · intro h
    simp [send, h]
  · intro h1 h2
    simp [send, h1, h2]

/-- Witness for C5 at concrete states: a disconnected client rejects
"hi", a connected client with a live writer sends it as bytes [104, 105]
with one DATA_SENT event. -/
theorem C5_send_not_connected_or_ok_witness :
    send ⟨false, false, false⟩ ['h', 'i'] =
      .error ("Not connected to server".data) ∧
    send ⟨true, true, true⟩ ['h', 'i'] =
      .ok ([104, 105], [.dataSent ['h', 'i']]) := by
  constructor
  · exact (C5_send_not_connected_or_ok ⟨false, false, false⟩ ['h', 'i']).1 (Or.inl rfl)
  · have h := (C5_send_not_connected_or_ok ⟨true, true, true⟩ ['h', 'i']).2 rfl rfl
    simpa [utf8Encode, utf8EncodeChar] using h

/-- C6: an empty read (EOF) makes the read loop call `disconnect()` and
exit: exactly one DISCONNECTED event is published, with no error field,
the state becomes disconnected, and any subsequent `send` fails with the
"Not connected to server" error. -/
theorem C6_eof_disconnects :
    ∀ (s : ClientState) (text : List Char),
      read_loop_iteration s [] =
        ({ connected := false, writer_present := false, reader_present := false },
         [.disconnected none], false) ∧
      send (read_loop_iteration s []).1 text =
        .error ("Not connected to server".data) := by
  intro s text
  constructor
  · rfl
  · rfl

/-! ## iCE colour rewrite (`TerminalEmulator._convert_ice_colors`) -/

/-- Python's str.isdigit restricted to ASCII, as used on the single
characters of an SGR parameter (all in [0-9;]). -/
def isDigitChar (c : Char) : Bool := '0' ≤ c && c ≤ '9'

/-- The greedy run of `[0-9;]*` characters that the pre-compiled pattern
`\x1b\[([0-9;]*)m` (terminal_emulator.py line 14) consumes after `ESC [`:
returns the run and the remaining text. -/
def takeParamRun : List Char → List Char × List Char
  | [] => ([], [])
  | c :: rest =>
    if isDigitChar c || c = ';' then
      let p := takeParamRun rest
      (c :: p.1, p.2)
    else
      ([], c :: rest)

/-- Match the pattern `\x1b\[([0-9;]*)m` at the head of the text: on
success return the parameter group and the text after the final `m`.
Because `m` is not in the class `[0-9;]`, the regex engine's greedy run
never backtracks, so this is exactly where `finditer` reports a match. -/
def matchSgrAt : List Char → Option (List Char × List Char)
  | a :: b :: rest =>
    if a = '\x1b' ∧ b = '[' then
      let p := takeParamRun rest
      match p.2 with
      | c :: after => if c = 'm' then some (p.1, after) else none
      | [] => none
    else none
  | _ => none

/-- Python's str.split(";"): split on every semicolon, keeping empty
pieces, with the empty string splitting to one empty piece. -/
def splitParams : List Char → List (List Char)
  | [] => [[]]
  | c :: rest =>
    if c = ';' then
      [] :: splitParams rest
    else
      match splitParams rest with
      | p :: ps => (c :: p) :: ps
      | [] => [[c]]

/-- State carried across SGR parameters inside one `_convert_ice_colors`
call (terminal_emulator.py lines 67–69). -/
structure IceState where
  has_blink : Bool
  current_bg : Option Nat
  deriving DecidableEq, Repr

/-- The body of the `for code in codes` loop of `_convert_ice_colors`
(terminal_emulator.py lines 79–98): returns the updated state and the
codes appended to new_codes.  Note the source guards the background case
with code.startswith("4") and len(code) == 2 and code[1].isdigit(), which
matches parameters 40–49, not only 40–47. -/
def processCode (st : IceState) (code : List Char) : IceState × List (List Char) :=
  if code = ['0'] ∨ code = [] then
    (⟨false, none⟩, [code])
  else if code = ['5'] then
    (⟨true, st.current_bg⟩, [])
  else
    match code with
    | [c1, c2] =>
      if c1 = '4' ∧ isDigitChar c2 then
        if st.has_blink then
          (⟨st.has_blink, some (c2.toNat - 48)⟩, [['1', '0', c2]])
        else
          (⟨st.has_blink, some (c2.toNat - 48)⟩, [code])
      else
        (st, [code])
    | _ => (st, [code])

/-- Run the `for code in codes` loop over all parameters of one SGR
sequence, collecting new_codes. -/
def processCodes (st : IceState) : List (List Char) → IceState × List (List Char)
  | [] => (st, [])
  | code :: rest =>
    let p := processCode st code
    let q := processCodes p.1 rest
    (q.1, p.2 ++ q.2)

/-- The `finditer` loop of `_convert_ice_colors` (terminal_emulator.py
lines 71–107), one character position at a time with explicit fuel: text
before a match is copied, each matched SGR sequence is rewritten from its
parameter list (and dropped entirely when new_codes is empty), and the
blink flag persists across sequences within the call. -/
def convertAux : Nat → IceState → List Char → List Char
  | 0, _, _ => []
  | _ + 1, _, [] => []
  | fuel + 1, st, c :: rest =>
    match matchSgrAt (c :: rest) with
    | some (group, after) =>
      let codes := if group = [] then [['0']] else splitParams group
      let p := processCodes st codes
      let seq :=
        if p.2 = [] then []
        else '\x1b' :: '[' :: (List.intercalate [';'] p.2 ++ ['m'])
      seq ++ convertAux fuel p.1 after
    | none => c :: convertAux fuel st rest

/-- Does the text contain the substring "\x1b[" (the early-exit test of
terminal_emulator.py line 63)? -/
def containsEscLb : List Char → Bool
  | [] => false
  | [_] => false
  | a :: b :: rest =>
    if a = '\x1b' ∧ b = '[' then true else containsEscLb (b :: rest)

/-- `TerminalEmulator._convert_ice_colors` (terminal_emulator.py lines
48–109) on the text of one feed() call. -/
def convert_ice_colors (data : List Char) : List Char :=
  if containsEscLb data then convertAux data.length ⟨false, none⟩ data else data

/-- C2 evaluation at the failing input: with blink active, the
default-background parameter 49 — which is not a background colour in
40–47 and which the claim requires to be left unchanged — is rewritten to
the meaningless parameter 109, because the source tests code[1].isdigit()
instead of restricting to 0–7.  (For comparison, the in-range parameter
44 is correctly rewritten to 104 with the blink parameter dropped.) -/
theorem C2_ice_rewrite_at_failing_input :
    convert_ice_colors ('\x1b' :: '[' :: '5' :: 'm' :: '\x1b' :: '[' :: '4' :: '9' :: 'm' :: [])
      = '\x1b' :: '[' :: '1' :: '0' :: '9' :: 'm' :: [] ∧
    convert_ice_colors ('\x1b' :: '[' :: '5' :: 'm' :: '\x1b' :: '[' :: '4' :: '4' :: 'm' :: [])
      = '\x1b' :: '[' :: '1' :: '0' :: '4' :: 'm' :: [] := by
  constructor
  · rfl
  · rfl

/-! ## Terminal emulator screen

The screen engine behind `TerminalEmulator` is the third-party pyte
library, which is not part of this repository's sources; the definitions
below marked "Modelled from the spec" follow the specification's
description of the escape-sequence state machine and grid (spec §3,
§4.2).  The claims settled on them concern only characters and the
cursor, so a cell is represented by its character. -/

/-- Printable ASCII (space through tilde), the characters written into the
grid in ground state. -/
def isPrintableAscii (c : Char) : Bool := 0x20 ≤ c.toNat && c.toNat ≤ 0x7e

/-- Modelled from the spec: the screen data model of the pyte engine —
an ordered fixed rows × columns grid of cells plus a 0-indexed cursor
clamped to grid bounds (spec §3). -/
structure EmuScreen where
  columns : Nat
  lines : Nat
  grid : List (List Char)
  cursor_x : Nat
  cursor_y : Nat
  deriving DecidableEq, Repr

/-- A blank row of default (space) cells. -/
def blankRow (columns : Nat) : List Char := List.replicate columns ' '

/-- Modelled from the spec: `clear()` resets the grid to default blank
cells and the cursor to (0, 0) without altering the dimensions (spec
§4.2); `TerminalEmulator.clear` delegates to the engine's reset. -/
def screen_clear (columns lines : Nat) : EmuScreen :=
  ⟨columns, lines, List.replicate lines (blankRow columns), 0, 0⟩

/-- Modelled from the spec (§4.2): in ground state a printable character
is written into the cell at the cursor, and the cursor advances one
column, wrapping to the next row (and scrolling the grid up by one row,
discarding the top row, when already at the last row) when it would
exceed the rightmost column. -/
def writeChar (s : EmuScreen) (c : Char) : EmuScreen :=
  let row := s.grid.getD s.cursor_y []
  let grid := s.grid.set s.cursor_y (row.set s.cursor_x c)
  if s.cursor_x + 1 < s.columns then
    { s with grid := grid, cursor_x := s.cursor_x + 1 }
  else if s.cursor_y + 1 < s.lines then
    { s with grid := grid, cursor_x := 0, cursor_y := s.cursor_y + 1 }
  else
    { s with grid := grid.drop 1 ++ [blankRow s.columns], cursor_x := 0 }

/-- Modelled from the spec (§4.2): one decimal CSI parameter; an omitted
(empty) or zero parameter defaults to 1. -/
def paramValue (p : List Char) : Nat :=
  let n := p.foldl (fun acc c => acc * 10 + (c.toNat - 48)) 0
  if n = 0 then 1 else n

/-- Modelled from the spec (§4.2, command H): move the cursor to the
1-indexed (row, column) given by the first two parameters, clamped to the
grid bounds. -/
def cursorPositionCmd (s : EmuScreen) (params : List Char) : EmuScreen :=
  let ps := splitParams params
  let row := paramValue (ps.getD 0 [])
  let col := paramValue (ps.getD 1 [])
  { s with cursor_x := min (col - 1) (s.columns - 1),
           cursor_y := min (row - 1) (s.lines - 1) }

/-- Modelled from the spec (§4.2): dispatch on the final letter of a CSI
sequence.  The cursor-position command is the only one that moves the
cursor or changes this model's character grid; attribute commands (m)
change only per-cell attributes, which this model does not carry, and
unrecognized finals discard the sequence silently. -/
def dispatchCsi (s : EmuScreen) (params : List Char) (cmd : Char) : EmuScreen :=
  if cmd = 'H' then cursorPositionCmd s params else s

/-- Modelled from the spec (§3): the transient escape-sequence parse
state — ground, just after ESC, or accumulating CSI parameters. -/
inductive ParseState where
  | ground
  | escSeen
  | csi (params : List Char)
  deriving DecidableEq, Repr

/-- Modelled from the spec (§4.2): one character step of the
escape-sequence state machine. -/
def feedChar (st : EmuScreen × ParseState) (c : Char) : EmuScreen × ParseState :=
  match st.2 with
  | .ground =>
    if c = '\x1b' then (st.1, .escSeen)
    else if isPrintableAscii c then (writeChar st.1 c, .ground)
    else (st.1, .ground)
  | .escSeen =>
    if c = '[' then (st.1, .csi [])
    else (st.1, .ground)
  | .csi ps =>
    if isDigitChar c || c = ';' then (st.1, .csi (ps ++ [c]))
    else (dispatchCsi st.1 ps c, .ground)

/-- Feed a text character-by-character into the state machine. -/
def feedChars (st : EmuScreen × ParseState) (data : List Char) :
    EmuScreen × ParseState :=
  data.foldl feedChar st

/-- `TerminalEmulator.feed` (terminal_emulator.py lines 35–46): rewrite
iCE colours, then feed the text to the escape-sequence engine. -/
def emulator_feed (st : EmuScreen × ParseState) (data : List Char) :
    EmuScreen × ParseState :=
  feedChars st (convert_ice_colors data)

/-- `TerminalEmulator.get_display` (terminal_emulator.py lines 111–118):
the screen content, one row of characters per line (pyte renders each
row's cell characters, blank cells as spaces). -/
def get_display (s : EmuScreen) : List (List Char) := s.grid

/-- `TerminalEmulator.get_cursor_position` (terminal_emulator.py lines
134–141): the (x, y) cursor coordinates, 0-indexed. -/
def get_cursor_position (s : EmuScreen) : Nat × Nat := (s.cursor_x, s.cursor_y)

/-- `TerminalEmulator.get_line` (terminal_emulator.py lines 120–132): the
y-th display row when 0 ≤ y < lines, the empty string otherwise; the
argument is a Python int, so it may be negative. -/
def get_line (s : EmuScreen) (y : Int) : List Char :=
  if 0 ≤ y ∧ y < (s.lines : Int) then (get_display s).getD y.toNat [] else []

/-- One decimal digit as a character. -/
def digitChar (d : Nat) : Char := Char.ofNat (d + 48)

/-- The decimal digits of n, least significant first, with fuel (n itself
is always enough fuel). -/
def decimalDigitsAux : Nat → Nat → List Char
  | 0, _ => []
  | _ + 1, 0 => []
  | fuel + 1, n + 1 => digitChar ((n + 1) % 10) :: decimalDigitsAux fuel ((n + 1) / 10)

/-- The decimal representation of n, most significant digit first (empty
for 0, which the claims below never use). -/
def decimalRepr (n : Nat) : List Char := (decimalDigitsAux n n).reverse

/-! ## Helper lemmas -/

/-- Characters of the remainder returned by takeParamRun come from the
input. -/
theorem takeParamRun_snd_subset :
    ∀ (l : List Char) (x : Char), x ∈ (takeParamRun l).2 → x ∈ l := by
  intro l
  induction l with
  | nil => intro x hx; simp [takeParamRun] at hx
  | cons c rest ih =>
    intro x hx
    by_cases h : (isDigitChar c || c = ';') = true
    · simp only [takeParamRun, if_pos h] at hx
      exact List.mem_cons_of_mem c (ih x hx)
    · simp only [takeParamRun, if_neg h] at hx
      exact hx

/-- A successful SGR match means the final letter m occurs in the text. -/
theorem matchSgrAt_some_mem_m :
    ∀ (d g after : List Char), matchSgrAt d = some (g, after) → 'm' ∈ d := by
  intro d g after h
  match d with
  | [] => simp [matchSgrAt] at h
  | [a] => simp [matchSgrAt] at h
  | a :: b :: rest =>
    simp only [matchSgrAt] at h
    by_cases hab : a = '\x1b' ∧ b = '['
    · rw [if_pos hab] at h
      cases hq : (takeParamRun rest).2 with
      | nil => rw [hq] at h; simp at h
      | cons c after2 =>
        rw [hq] at h
        by_cases hc : c = 'm'
        · subst hc
          have hmem : 'm' ∈ (takeParamRun rest).2 := by
            rw [hq]; exact List.mem_cons_self _ _
          exact List.mem_cons_of_mem a
            (List.mem_cons_of_mem b (takeParamRun_snd_subset rest 'm' hmem))
        · simp [hc] at h
    · rw [if_neg hab] at h; simp at h

/-- A text with no final letter m admits no SGR match anywhere, so the
iCE rewrite loop copies it unchanged. -/
theorem convertAux_no_m :
    ∀ (fuel : Nat) (st : IceState) (d : List Char), d.length ≤ fuel → 'm' ∉ d →
      convertAux fuel st d = d := by
  intro fuel
  induction fuel with
  | zero =>
    intro st d hlen _
    have : d = [] := List.length_eq_zero.mp (Nat.le_zero.mp hlen)
    subst this; rfl
  | succ n ih =>
    intro st d hlen hm
    match d with
    | [] => rfl
    | c :: rest =>
      cases hmatch : matchSgrAt (c :: rest) with
      | some p =>
        obtain ⟨g, after⟩ := p
        exact absurd (matchSgrAt_some_mem_m (c :: rest) g after hmatch) hm
      | none =>
        have hm' : 'm' ∉ rest := fun hx => hm (List.mem_cons_of_mem c hx)
        have hlen' : rest.length ≤ n := by simpa using hlen
        simp only [convertAux, hmatch, ih st rest hlen' hm']

/-- The iCE rewrite leaves any text without the letter m unchanged. -/
theorem convert_ice_colors_no_m (d : List Char) (hm : 'm' ∉ d) :
    convert_ice_colors d = d := by
  unfold convert_ice_colors
  by_cases h : containsEscLb d = true
  · rw [if_pos h]
    exact convertAux_no_m d.length ⟨false, none⟩ d le_rfl hm
  · rw [if_neg h]

/-- A text without the escape character fails the early-exit test. -/
theorem containsEscLb_eq_false :
    ∀ d : List Char, '\x1b' ∉ d → containsEscLb d = false := by
  intro d
  induction d with
  | nil => intro _; rfl
  | cons a rest ih =>
    intro h
    have ha : a ≠ '\x1b' := fun e => h (e ▸ List.mem_cons_self a rest)
    cases rest with
    | nil => rfl
    | cons b r2 =>
      have hcond : ¬(a = '\x1b' ∧ b = '[') := fun hp => ha hp.1
      rw [containsEscLb, if_neg hcond]
      exact ih (fun hx => h (List.mem_cons_of_mem a hx))

/-- The iCE rewrite leaves any text without the escape character
unchanged (the early exit of terminal_emulator.py line 63). -/
theorem convert_ice_colors_no_esc (d : List Char) (h : '\x1b' ∉ d) :
    convert_ice_colors d = d := by
  unfold convert_ice_colors
  rw [containsEscLb_eq_false d h]
  simp

/-- Facts about decimal digit characters: they satisfy isDigitChar and
are distinct from the delimiters the claims involve. -/
theorem digit_facts :
    ∀ d : Nat, d < 10 → isDigitChar (digitChar d) = true ∧ digitChar d ≠ 'm' ∧
      digitChar d ≠ ';' ∧ digitChar d ≠ '\x1b' ∧ (digitChar d).toNat = d + 48 := by
  decide

/-- Every character produced by decimalDigitsAux is a digit character. -/
theorem decimalDigitsAux_mem :
    ∀ (fuel n : Nat) (c : Char), c ∈ decimalDigitsAux fuel n →
      ∃ d, d < 10 ∧ c = digitChar d := by
  intro fuel
  induction fuel with
  | zero => intro n c hc; simp [decimalDigitsAux] at hc
  | succ k ih =>
    intro n c hc
    match n with
    | 0 => simp [decimalDigitsAux] at hc
    | m + 1 =>
      simp only [decimalDigitsAux, List.mem_cons] at hc
      rcases hc with hc | hc
      · exact ⟨(m + 1) % 10, Nat.mod_lt _ (by norm_num), hc⟩
      · exact ih ((m + 1) / 10) c hc

/-- Every character of a decimal representation is a digit character. -/
theorem decimalRepr_digits (n : Nat) (ch : Char) (hch : ch ∈ decimalRepr n) :
    ∃ d, d < 10 ∧ ch = digitChar d := by
  rw [decimalRepr, List.mem_reverse] at hch
  exact decimalDigitsAux_mem n n ch hch

/-- The semicolon never occurs in a decimal representation. -/
theorem semi_not_mem_decimalRepr (n : Nat) : ';' ∉ decimalRepr n := by
  intro h
  obtain ⟨d, hd, he⟩ := decimalRepr_digits n ';' h
  exact (digit_facts d hd).2.2.1 he.symm

/-- Folding the decimal digits (least significant first) recovers the
number. -/
theorem decimal_foldr :
    ∀ (fuel n : Nat), n ≤ fuel →
      (decimalDigitsAux fuel n).foldr (fun c acc => acc * 10 + (c.toNat - 48)) 0 = n := by
  intro fuel
  induction fuel with
  | zero =>
    intro n hn
    interval_cases n
    rfl
  | succ k ih =>
    intro n hn
    match n with
    | 0 => rfl
    | m + 1 =>
      have hdiv : (m + 1) / 10 ≤ k := by omega
      simp only [decimalDigitsAux, List.foldr_cons, ih ((m + 1) / 10) hdiv]
      rw [(digit_facts ((m + 1) % 10) (Nat.mod_lt _ (by norm_num))).2.2.2.2]
      omega

/-- Parsing the decimal representation of a positive number recovers it. -/
theorem paramValue_decimalRepr (n : Nat) (hn : 1 ≤ n) :
    paramValue (decimalRepr n) = n := by
  have h : (decimalRepr n).foldl (fun acc c => acc * 10 + (c.toNat - 48)) 0 = n := by
    rw [decimalRepr, List.foldl_reverse]
    exact decimal_foldr n n le_rfl
  have hne : n ≠ 0 := by omega
  simp only [paramValue, h, hne, if_false]

/-- Splitting a semicolon-free parameter yields a single piece. -/
theorem splitParams_no_semi :
    ∀ l : List Char, ';' ∉ l → splitParams l = [l] := by
  intro l
  induction l with
  | nil => intro _; rfl
  | cons c rest ih =>
    intro h
    have hc : ¬(c = ';') := fun e => h (e ▸ List.mem_cons_self c rest)
    have hr := ih (fun hx => h (List.mem_cons_of_mem c hx))
    simp only [splitParams, if_neg hc, hr]

/-- Splitting at the single semicolon between two pieces. -/
theorem splitParams_append_semi :
    ∀ (l1 l2 : List Char), ';' ∉ l1 →
      splitParams (l1 ++ ';' :: l2) = l1 :: splitParams l2 := by
  intro l1 l2
  induction l1 with
  | nil => intro _; simp [splitParams]
  | cons c r ih =>
    intro h
    have hc : ¬(c = ';') := fun e => h (e ▸ List.mem_cons_self c r)
    have hr := ih (fun hx => h (List.mem_cons_of_mem c hx))
    simp only [List.cons_append, splitParams, if_neg hc, List.append_eq, hr]

/-- C10: get_line is total at the public interface: it returns the y-th
display row for 0 ≤ y < lines and the empty string, without raising, for
every y outside that range, including negative y. -/
theorem C10_get_line_total :
    ∀ (s : EmuScreen) (y : Int),
      (0 ≤ y → y < (s.lines : Int) → get_line s y = (get_display s).getD y.toNat []) ∧
      (y < 0 → get_line s y = []) ∧
      ((s.lines : Int) ≤ y → get_line s y = []) := by
  intro s y
  refine ⟨?_, ?_, ?_⟩
  · intro h1 h2
    rw [get_line, if_pos ⟨h1, h2⟩]
  · intro h
    rw [get_line, if_neg (by omega)]
  · intro h
    rw [get_line, if_neg (by omega)]

/-- Witness for C10 on a concrete 2×2 screen: row 0 is returned in
range, and the out-of-range indices -1 and 5 both return the empty
string. -/
theorem C10_get_line_total_witness :
    get_line (screen_clear 2 2) 0 = (get_display (screen_clear 2 2)).getD 0 [] ∧
    get_line (screen_clear 2 2) (-1) = [] ∧
    get_line (screen_clear 2 2) 5 = [] := by
  refine ⟨?_, ?_, ?_⟩
  · exact (C10_get_line_total (screen_clear 2 2) 0).1 (by decide) (by decide)
  · exact (C10_get_line_total (screen_clear 2 2) (-1)).2.1 (by decide)
  · exact (C10_get_line_total (screen_clear 2 2) 5).2.2 (by decide)

/-- Feeding one character then the rest. -/
theorem feedChars_cons (st : EmuScreen × ParseState) (c : Char) (l : List Char) :
    feedChars st (c :: l) = feedChars (feedChar st c) l := rfl

/-- While accumulating CSI parameters, digit and semicolon characters are
appended; the final letter H dispatches the accumulated parameters. -/
theorem feedChars_csi_params :
    ∀ (ps : List Char) (s : EmuScreen) (acc : List Char),
      (∀ ch ∈ ps, isDigitChar ch = true ∨ ch = ';') →
      feedChars (s, .csi acc) (ps ++ ['H']) = (dispatchCsi s (acc ++ ps) 'H', .ground) := by
  intro ps
  induction ps with
  | nil =>
    intro s acc _
    simp [feedChars, feedChar, isDigitChar]
  | cons c ps' ih =>
    intro s acc h
    have hc : isDigitChar c = true ∨ c = ';' := h c (List.mem_cons_self c ps')
    have hcond : (isDigitChar c || c = ';') = true := by
      rcases hc with h1 | h1
      · simp [h1]
      · simp [h1]
    rw [List.cons_append, feedChars_cons]
    have hfc : feedChar (s, .csi acc) c = (s, .csi (acc ++ [c])) := by
      simp [feedChar, hcond]
    rw [hfc, ih s (acc ++ [c]) (fun x hx => h x (List.mem_cons_of_mem c hx))]
    simp [List.append_assoc]

/-- The parameter characters of a row;column cursor command are digits or
the semicolon. -/
theorem decimal_params_ok (r c : Nat) :
    ∀ ch ∈ (decimalRepr r ++ ';' :: decimalRepr c), isDigitChar ch = true ∨ ch = ';' := by
  intro ch hch
  rcases List.mem_append.mp hch with h | h
  · obtain ⟨d, hd, he⟩ := decimalRepr_digits r ch h
    exact Or.inl (he ▸ (digit_facts d hd).1)
  · rcases List.mem_cons.mp h with h | h
    · exact Or.inr h
    · obtain ⟨d, hd, he⟩ := decimalRepr_digits c ch h
      exact Or.inl (he ▸ (digit_facts d hd).1)

/-- A CSI cursor command built from digit-or-semicolon parameters and the
final letter H contains no letter m, so the iCE rewrite passes it
through unchanged. -/
theorem not_m_mem_csiH (ps : List Char)
    (hps : ∀ ch ∈ ps, isDigitChar ch = true ∨ ch = ';') :
    'm' ∉ ('\x1b' :: '[' :: (ps ++ ['H'])) := by
  intro h
  rcases List.mem_cons.mp h with h1 | h
  · exact absurd h1 (by decide)
  rcases List.mem_cons.mp h with h1 | h
  · exact absurd h1 (by decide)
  rcases List.mem_append.mp h with h1 | h1
  · rcases hps _ h1 with h2 | h2
    · exact absurd h2 (by decide)
    · exact absurd h2 (by decide)
  · exact absurd (List.mem_singleton.mp h1) (by decide)

/-- C8: for every cursor-position escape sequence ESC [ row ; col H with
positive decimal parameters, the emulator moves the cursor to the
requested 1-indexed position clamped to the 80×24 grid bounds, and with
both parameters omitted (ESC [ H) they default to 1, i.e. the top-left
corner; get_cursor_position reports (column, row) 0-indexed. -/
theorem C8_cursor_position_clamped :
    (∀ r c : Nat, 1 ≤ r → 1 ≤ c →
      get_cursor_position
        (emulator_feed (screen_clear 80 24, ParseState.ground)
          ('\x1b' :: '[' :: ((decimalRepr r ++ ';' :: decimalRepr c) ++ ['H']))).1
        = (min (c - 1) 79, min (r - 1) 23)) ∧
    get_cursor_position
      (emulator_feed (screen_clear 80 24, ParseState.ground) ['\x1b', '[', 'H']).1
      = (0, 0) := by
  constructor
  · intro r c hr hc
    have hps := decimal_params_ok r c
    have hm := not_m_mem_csiH (decimalRepr r ++ ';' :: decimalRepr c) hps
    rw [emulator_feed, convert_ice_colors_no_m _ hm]
    rw [feedChars_cons, feedChars_cons]
    have h1 : feedChar (screen_clear 80 24, ParseState.ground) '\x1b'
        = (screen_clear 80 24, ParseState.escSeen) := by simp [feedChar]
    have h2 : feedChar (screen_clear 80 24, ParseState.escSeen) '['
        = (screen_clear 80 24, ParseState.csi []) := by simp [feedChar]
    rw [h1, h2, feedChars_csi_params _ _ [] hps]
    simp only [List.nil_append]
    rw [dispatchCsi, if_pos rfl, cursorPositionCmd]
    rw [splitParams_append_semi _ _ (semi_not_mem_decimalRepr r),
        splitParams_no_semi _ (semi_not_mem_decimalRepr c)]
    simp [get_cursor_position, screen_clear,
      paramValue_decimalRepr r hr, paramValue_decimalRepr c hc]
  · rfl

/-- Witness for C8 at the concrete probe of the spec: requesting row 999,
column 999 on the 80×24 grid leaves the cursor at (79, 23). -/
theorem C8_cursor_position_clamped_witness :
    get_cursor_position
      (emulator_feed (screen_clear 80 24, ParseState.ground)
        ['\x1b', '[', '9', '9', '9', ';', '9', '9', '9', 'H']).1 = (79, 23) := by
  have h := C8_cursor_position_clamped.1 999 999 (by decide) (by decide)
  have e : '\x1b' :: '[' :: ((decimalRepr 999 ++ ';' :: decimalRepr 999) ++ ['H'])
      = ['\x1b', '[', '9', '9', '9', ';', '9', '9', '9', 'H'] := by decide
  have e2 : (min (999 - 1) 79, min (999 - 1) 23) = ((79 : Nat), (23 : Nat)) := by decide
  rw [e, e2] at h
  exact h

/-- Setting the element just past a prefix writes into the suffix. -/
theorem set_append_length (l1 l2 : List Char) (a : Char) :
    (l1 ++ l2).set l1.length a = l1 ++ l2.set 0 a := by
  induction l1 with
  | nil => simp
  | cons c r ih => simp [List.set, ih]

/-- A printable character is not the escape character. -/
theorem printable_not_esc (ch : Char) (h : isPrintableAscii ch = true) :
    ch ≠ '\x1b' := by
  intro e
  subst e
  exact absurd h (by decide)

/-- Feeding printable text into a ground-state 80×24 screen whose first
row holds a prefix followed by blanks, with the cursor just after the
prefix on row 0, appends the text to the first row and advances the
cursor, leaving the other 23 rows blank. -/
theorem feed_printables :
    ∀ (text pre : List Char),
      (∀ ch ∈ text, isPrintableAscii ch = true) →
      pre.length + text.length < 80 →
      feedChars (⟨80, 24, (pre ++ List.replicate (80 - pre.length) ' ') ::
          List.replicate 23 (blankRow 80), pre.length, 0⟩, ParseState.ground) text
        = (⟨80, 24, ((pre ++ text) ++ List.replicate (80 - (pre.length + text.length)) ' ') ::
            List.replicate 23 (blankRow 80), pre.length + text.length, 0⟩,
           ParseState.ground) := by
  intro text
  induction text with
  | nil =>
    intro pre _ _
    simp [feedChars]
  | cons ch rest ih =>
    intro pre hprint hlen
    have hch : isPrintableAscii ch = true := hprint ch (List.mem_cons_self ch rest)
    have hesc : ¬(ch = '\x1b') := printable_not_esc ch hch
    have hlt : pre.length + 1 < 80 := by
      simp only [List.length_cons] at hlen
      omega
    rw [feedChars_cons]
    have hrow : (pre ++ List.replicate (80 - pre.length) ' ').set pre.length ch
        = (pre ++ [ch]) ++ List.replicate (80 - (pre.length + 1)) ' ' := by
      have hrep : List.replicate (80 - pre.length) ' '
          = ' ' :: List.replicate (80 - (pre.length + 1)) ' ' := by
        have : 80 - pre.length = (80 - (pre.length + 1)) + 1 := by omega
        rw [this, List.replicate_succ]
      rw [set_append_length, hrep]
      simp
    have hfc : feedChar (⟨80, 24, (pre ++ List.replicate (80 - pre.length) ' ') ::
        List.replicate 23 (blankRow 80), pre.length, 0⟩, ParseState.ground) ch
        = (⟨80, 24, ((pre ++ [ch]) ++ List.replicate (80 - (pre.length + 1)) ' ') ::
            List.replicate 23 (blankRow 80), pre.length + 1, 0⟩, ParseState.ground) := by
      simp only [feedChar, if_neg hesc, hch, if_pos rfl]
      simp [writeChar, hrow, hlt]
    rw [hfc]
    have hih := ih (pre ++ [ch])
      (fun x hx => hprint x (List.mem_cons_of_mem ch hx))
      (by simp only [List.length_append, List.length_cons, List.length_nil] at hlen ⊢; omega)
    simp only [List.length_append, List.length_cons, List.length_nil] at hih
    rw [hih]
    have e1 : pre.length + 1 + rest.length = pre.length + (rest.length + 1) := by omega
    simp only [List.append_assoc, List.singleton_append, List.length_cons, e1]

/-- C9: feeding a string of printable ASCII characters shorter than the
column count into a freshly cleared 80×24 emulator yields a display whose
first row is that string padded on the right with spaces to the full
width, with all other rows blank. -/
theorem C9_printable_roundtrip :
    ∀ text : List Char,
      (∀ ch ∈ text, isPrintableAscii ch = true) → text.length < 80 →
      get_display (emulator_feed (screen_clear 80 24, ParseState.ground) text).1
        = (text ++ List.replicate (80 - text.length) ' ') ::
          List.replicate 23 (blankRow 80) := by
  intro text hprint hlen
  have hesc : '\x1b' ∉ text := by
    intro h
    exact absurd (hprint _ h) (by decide)
  rw [emulator_feed, convert_ice_colors_no_esc _ hesc]
  have h0 : screen_clear 80 24
      = ⟨80, 24, ([] ++ List.replicate (80 - List.length ([] : List Char)) ' ') ::
          List.replicate 23 (blankRow 80), List.length ([] : List Char), 0⟩ := by
    simp [screen_clear, blankRow, List.replicate_succ]
  rw [h0, feed_printables text [] hprint (by simpa using hlen)]
  simp [get_display]

/-- Witness for C9 at the concrete string "Hi": the first display row is
"Hi" followed by 78 spaces, the other 23 rows are blank. -/
theorem C9_printable_roundtrip_witness :
    get_display (emulator_feed (screen_clear 80 24, ParseState.ground) ['H', 'i']).1
      = (['H', 'i'] ++ List.replicate 78 ' ') :: List.replicate 23 (blankRow 80) :=
  C9_printable_roundtrip ['H', 'i'] (by decide) (by decide)

end PyTWAT
